import Mathlib

/-!
Shallow embedding of the binary-heap priority queue of
`crescent_library` (`priority_queue.h` and
`container/unstable_priority_queue.h`).

The C++ class `crsc::priority_queue<_Ty, _Cntr, _Pr>` wraps a
`std::vector` (`heap_cntr : List α` here) together with a comparator
(`comp : α → α → Bool`, defaulting to `std::less`).  In the spec's
vocabulary, `higherPriority a b` is `comp b a`: with `std::less`, `a`
outranks `b` exactly when `b < a`.  Machine indices (`std::size_t`) are
modelled as `Nat`; no arithmetic here can overflow in any execution the
claims exercise, since every index is bounded by the container length.
Out-of-range `operator[]` reads, which are undefined behaviour in C++,
are modelled by a default element (`Inhabited α`); every theorem below
only exercises in-range reads.  `std::vector::erase` on a
non-dereferenceable iterator is undefined behaviour and is modelled by
`Option.none`.
-/

namespace CrescentPQ

variable {α : Type}

/-- Read `heap_cntr[i]` (C++ `operator[]`); out of range gives the
default element (undefined behaviour in the source, never exercised by
the theorems). -/
def nth [Inhabited α] (l : List α) (i : Nat) : α := l.getD i default

/-- Model of `std::swap(heap_cntr[i], heap_cntr[j])`. -/
def swapAt [Inhabited α] (l : List α) (i j : Nat) : List α :=
  (l.set i (nth l j)).set j (nth l i)

/-- The `min_pos` computation inside `priority_queue::bubble_down`
(priority_queue.h lines 637-645): starting from `_pos`, move to the left
child if `comp(heap_cntr[_pos], heap_cntr[left_child])`, then to the
right child if it exists and `comp(heap_cntr[min_pos],
heap_cntr[right_child])`. -/
def min_pos_of [Inhabited α] (comp : α → α → Bool) (l : List α) (pos : Nat) : Nat :=
  let m1 := if comp (nth l pos) (nth l (2 * pos + 1)) then 2 * pos + 1 else pos
  if 2 * pos + 2 < l.length ∧ comp (nth l m1) (nth l (2 * pos + 2)) then 2 * pos + 2 else m1

theorem length_swapAt [Inhabited α] (l : List α) (i j : Nat) :
    (swapAt l i j).length = l.length := by
  simp [swapAt]

theorem min_pos_of_cases [Inhabited α] (comp : α → α → Bool) (l : List α) (pos : Nat) :
    min_pos_of comp l pos = pos ∨ min_pos_of comp l pos = 2 * pos + 1 ∨
      min_pos_of comp l pos = 2 * pos + 2 := by
  unfold min_pos_of
  split
  all_goals dsimp only
  all_goals split
  all_goals simp

/-- `priority_queue::bubble_down` (priority_queue.h lines 630-651):
if the left child is past the end, return; otherwise compute `min_pos`
and, when it differs from `_pos`, swap and recurse from `min_pos`. -/
def bubble_down [Inhabited α] (comp : α → α → Bool) (l : List α) (pos : Nat) : List α :=
  if h1 : l.length ≤ 2 * pos + 1 then l
  else
    let m := min_pos_of comp l pos
    if h2 : m ≠ pos then bubble_down comp (swapAt l pos m) m else l
termination_by l.length - pos
decreasing_by
  rcases min_pos_of_cases comp l pos with h | h | h <;>
    simp only [length_swapAt] <;> omega

/-- `priority_queue::bubble_up` (priority_queue.h lines 661-672):
if at the top, return; otherwise compare against the parent and, when
`comp(heap_cntr[parent], heap_cntr[_pos])`, swap and recurse from the
parent. -/
def bubble_up [Inhabited α] (comp : α → α → Bool) (l : List α) (pos : Nat) : List α :=
  if h1 : pos = 0 then l
  else
    if comp (nth l ((pos - 1) / 2)) (nth l pos) then
      bubble_up comp (swapAt l pos ((pos - 1) / 2)) ((pos - 1) / 2)
    else l
termination_by pos
decreasing_by omega

/-- `priority_queue::pop_top` (priority_queue.h lines 679-687): if the
container is empty do nothing, else swap the top with the last element,
`pop_back`, and bubble down from the top. -/
def pop_top [Inhabited α] (comp : α → α → Bool) (l : List α) : List α :=
  if l.length = 0 then l
  else bubble_down comp ((swapAt l 0 (l.length - 1)).dropLast) 0

/-- `priority_queue::dequeue` (priority_queue.h lines 361-363): delegates
to `pop_top`. -/
def dequeue [Inhabited α] (comp : α → α → Bool) (l : List α) : List α :=
  pop_top comp l

/-- `priority_queue::enqueue` (priority_queue.h lines 318-323):
`push_back` the value then `bubble_up(size() - 1)`. -/
def enqueue [Inhabited α] (comp : α → α → Bool) (l : List α) (v : α) : List α :=
  bubble_up comp (l ++ [v]) ((l ++ [v]).length - 1)

/-- The loop of `priority_queue::heapify`: `heapify_iter comp l k` runs
`bubble_down` at indices `k-1, k-2, ..., 0` in that order. -/
def heapify_iter [Inhabited α] (comp : α → α → Bool) : List α → Nat → List α
  | l, 0 => l
  | l, k + 1 => heapify_iter comp (bubble_down comp l k) k

/-- `priority_queue::heapify` (priority_queue.h lines 696-699): bubble
down from every index, from `size() - 1` down to `0`. -/
def heapify [Inhabited α] (comp : α → α → Bool) (l : List α) : List α :=
  heapify_iter comp l l.length

/-- Index of the first element equal to `tgt`, or `l.length` when
absent: the model of `std::find(heap_cntr.begin(), heap_cntr.end(), v)`
composed with `std::distance` from `begin()` (the end iterator maps to
index `l.length`). -/
def find_idx [DecidableEq α] : List α → α → Nat
  | [], _ => 0
  | a :: t, tgt => if a = tgt then 0 else find_idx t tgt + 1

/-- `priority_queue::alter(const std::pair&)` (priority_queue.h lines
385-394): find the first instance of `tgt`; when present, overwrite it
with `alt`, then bubble up from its index when `comp(tgt, alt)`, else
bubble down. Absent target: do nothing. -/
def alter_pair [Inhabited α] [DecidableEq α] (comp : α → α → Bool) (l : List α)
    (tgt alt : α) : List α :=
  let i := find_idx l tgt
  if i ≠ l.length then
    let l' := l.set i alt
    if comp tgt alt then bubble_up comp l' i else bubble_down comp l' i
  else l

/-- `priority_queue::alter(const_iterator, const value_type&)`
(priority_queue.h lines 405-412): record `b_up = comp(heap_cntr[index],
_alter_to_val)` before overwriting, assign, then bubble up when `b_up`
else bubble down. -/
def alter_at [Inhabited α] (comp : α → α → Bool) (l : List α) (i : Nat) (v : α) : List α :=
  let b_up := comp (nth l i) v
  let l' := l.set i v
  if b_up then bubble_up comp l' i else bubble_down comp l' i

/-- `priority_queue::erase(const_iterator)` (priority_queue.h lines
527-530): `heap_cntr.erase(pos)` (positional erase, shifting the tail
left), then `bubble_down` at the index of the returned iterator, which
is the same index. -/
def erase_at [Inhabited α] (comp : α → α → Bool) (l : List α) (i : Nat) : List α :=
  bubble_down comp (l.eraseIdx i) i

/-- `priority_queue::erase(const value_type&)` (priority_queue.h lines
537-540): `heap_cntr.erase(find(_val_erase))`, then `bubble_down` at the
returned index. When the value is absent, `find` yields `end()` and
`std::vector::erase(end())` is undefined behaviour, modelled as `none`. -/
def erase_val [Inhabited α] [DecidableEq α] (comp : α → α → Bool) (l : List α)
    (v : α) : Option (List α) :=
  let i := find_idx l v
  if i < l.length then some (bubble_down comp (l.eraseIdx i) i) else none

/-- `unstable_priority_queue::bubble_down`
(unstable_priority_queue.h lines 309-330); the body is textually
identical to `priority_queue::bubble_down`, including the `min_pos`
computation (lines 316-324) mirrored by `min_pos_of`. -/
def upq_bubble_down [Inhabited α] (comp : α → α → Bool) (l : List α) (pos : Nat) : List α :=
  if h1 : l.length ≤ 2 * pos + 1 then l
  else
    let m := min_pos_of comp l pos
    if h2 : m ≠ pos then upq_bubble_down comp (swapAt l pos m) m else l
termination_by l.length - pos
decreasing_by
  rcases min_pos_of_cases comp l pos with h | h | h <;>
    simp only [length_swapAt] <;> omega

/-- `unstable_priority_queue::dequeue` (unstable_priority_queue.h lines
264-272): if empty do nothing, else copy-assign the last element onto
the top (`heap_cntr[0] = heap_cntr[heap_size - 1]`), `pop_back`, and
bubble down from the top. -/
def upq_dequeue [Inhabited α] (comp : α → α → Bool) (l : List α) : List α :=
  if l.length = 0 then l
  else upq_bubble_down comp ((l.set 0 (nth l (l.length - 1))).dropLast) 0

/-- One parent/child edge of the heap invariant: when the child index
`c` is in range, the parent at `j` is not outranked by it
(`comp (nth l j) (nth l c) = false`, i.e. `higherPriority H[c] H[j]` is
false). -/
def childOk [Inhabited α] (comp : α → α → Bool) (l : List α) (j c : Nat) : Prop :=
  c < l.length → comp (nth l j) (nth l c) = false

/-- Both child edges of node `j` satisfy the heap condition. -/
def heapAt [Inhabited α] (comp : α → α → Bool) (l : List α) (j : Nat) : Prop :=
  childOk comp l j (2 * j + 1) ∧ childOk comp l j (2 * j + 2)

/-- The heap invariant of the spec (and of the class doc of
`priority_queue.h`): no child outranks its parent. -/
def heapInvariant [Inhabited α] (comp : α → α → Bool) (l : List α) : Prop :=
  ∀ j, j < l.length → heapAt comp l j

instance [Inhabited α] (comp : α → α → Bool) (l : List α) (j c : Nat) :
    Decidable (childOk comp l j c) := by
  unfold childOk; infer_instance

instance [Inhabited α] (comp : α → α → Bool) (l : List α) (j : Nat) :
    Decidable (heapAt comp l j) := by
  unfold heapAt; infer_instance

instance [Inhabited α] (comp : α → α → Bool) (l : List α) :
    Decidable (heapInvariant comp l) := by
  unfold heapInvariant; infer_instance

/-- The default comparator `std::less<int>` on mathematical integers. -/
def intLt : Int → Int → Bool := fun a b => decide (a < b)

/-! ### Elementary index lemmas -/

theorem nth_set_self [Inhabited α] {l : List α} {i : Nat} (h : i < l.length) (v : α) :
    nth (l.set i v) i = v := by
  simp [nth, List.getD_eq_getElem?_getD, List.getElem?_set_self h]

theorem nth_set_ne [Inhabited α] {l : List α} {i j : Nat} (h : i ≠ j) (v : α) :
    nth (l.set i v) j = nth l j := by
  simp [nth, List.getD_eq_getElem?_getD, List.getElem?_set_ne h]

theorem nth_swapAt_fst [Inhabited α] {l : List α} {i j : Nat}
    (hi : i < l.length) (hj : j < l.length) : nth (swapAt l i j) i = nth l j := by
  unfold swapAt
  rcases eq_or_ne j i with h | h
  · subst h; exact nth_set_self (by simpa using hi) _
  · rw [nth_set_ne h, nth_set_self hi]

theorem nth_swapAt_snd [Inhabited α] {l : List α} {i j : Nat}
    (hj : j < l.length) : nth (swapAt l i j) j = nth l i := by
  unfold swapAt
  exact nth_set_self (by simpa using hj) _

theorem nth_swapAt_other [Inhabited α] {l : List α} {i j q : Nat}
    (hqi : q ≠ i) (hqj : q ≠ j) : nth (swapAt l i j) q = nth l q := by
  unfold swapAt
  rw [nth_set_ne (Ne.symm hqj), nth_set_ne (Ne.symm hqi)]

theorem nth_dropLast [Inhabited α] {l : List α} {q : Nat} (h : q < l.length - 1) :
    nth l.dropLast q = nth l q := by
  have h1 : q < l.dropLast.length := by simpa using h
  have h2 : q < l.length := by omega
  rw [nth, List.getD_eq_getElem _ _ h1, List.getElem_dropLast,
    nth, List.getD_eq_getElem _ _ h2]

theorem nth_append_left [Inhabited α] {l l2 : List α} {q : Nat} (h : q < l.length) :
    nth (l ++ l2) q = nth l q := by
  simp [nth, List.getD_eq_getElem?_getD, List.getElem?_append_left h]

theorem nth_concat_self [Inhabited α] (l : List α) (v : α) :
    nth (l ++ [v]) l.length = v := by
  simp [nth, List.getD_eq_getElem?_getD, List.getElem?_concat_length]

theorem nth_mem [Inhabited α] {l : List α} {i : Nat} (h : i < l.length) :
    nth l i ∈ l := by
  rw [nth, List.getD_eq_getElem _ _ h]
  exact List.getElem_mem h

/-! ### Strict-weak-order helper -/

/-- Asymmetry of the comparator: follows from irreflexivity and
transitivity. -/
theorem comp_asymm {comp : α → α → Bool}
    (hirr : ∀ a, comp a a = false)
    (htr : ∀ a b c, comp a b = true → comp b c = true → comp a c = true)
    {a b : α} (h : comp a b = true) : comp b a = false := by
  by_contra hc
  have hba : comp b a = true := by
    cases hcc : comp b a
    · exact absurd hcc hc
    · rfl
  have := htr a b a h hba
  rw [hirr a] at this
  exact Bool.false_ne_true this

/-! ### Analysis of the `min_pos` selection -/

/-- Exhaustive case description of the `min_pos` selection. -/
theorem min_pos_of_spec [Inhabited α] (comp : α → α → Bool) (l : List α) (pos : Nat) :
    (min_pos_of comp l pos = pos ∧
      comp (nth l pos) (nth l (2 * pos + 1)) = false ∧
      (2 * pos + 2 < l.length → comp (nth l pos) (nth l (2 * pos + 2)) = false)) ∨
    (min_pos_of comp l pos = 2 * pos + 1 ∧
      comp (nth l pos) (nth l (2 * pos + 1)) = true ∧
      (2 * pos + 2 < l.length →
        comp (nth l (2 * pos + 1)) (nth l (2 * pos + 2)) = false)) ∨
    (min_pos_of comp l pos = 2 * pos + 2 ∧ 2 * pos + 2 < l.length ∧
      ((comp (nth l pos) (nth l (2 * pos + 1)) = true ∧
        comp (nth l (2 * pos + 1)) (nth l (2 * pos + 2)) = true) ∨
       (comp (nth l pos) (nth l (2 * pos + 1)) = false ∧
        comp (nth l pos) (nth l (2 * pos + 2)) = true))) := by
  by_cases h1 : comp (nth l pos) (nth l (2 * pos + 1)) = true
  · by_cases h2 : 2 * pos + 2 < l.length ∧
        comp (nth l (2 * pos + 1)) (nth l (2 * pos + 2)) = true
    · refine Or.inr (Or.inr ⟨?_, h2.1, Or.inl ⟨h1, h2.2⟩⟩)
      unfold min_pos_of
      rw [if_pos h1]; dsimp only
      rw [if_pos h2]
    · refine Or.inr (Or.inl ⟨?_, h1, ?_⟩)
      · unfold min_pos_of
        rw [if_pos h1]; dsimp only
        rw [if_neg h2]
      · intro hc
        rcases not_and_or.mp h2 with h | h
        · exact absurd hc h
        · exact Bool.of_not_eq_true h
  · have h1f : comp (nth l pos) (nth l (2 * pos + 1)) = false :=
      Bool.of_not_eq_true h1
    by_cases h2 : 2 * pos + 2 < l.length ∧
        comp (nth l pos) (nth l (2 * pos + 2)) = true
    · refine Or.inr (Or.inr ⟨?_, h2.1, Or.inr ⟨h1f, h2.2⟩⟩)
      unfold min_pos_of
      rw [if_neg h1]; dsimp only
      rw [if_pos h2]
    · refine Or.inl ⟨?_, h1f, ?_⟩
      · unfold min_pos_of
        rw [if_neg h1]; dsimp only
        rw [if_neg h2]
      · intro hc
        rcases not_and_or.mp h2 with h | h
        · exact absurd hc h
        · exact Bool.of_not_eq_true h

/-- When `min_pos` moved off `_pos`, the chosen child is in range,
outranks the parent, and is not outranked by the other child. -/
theorem min_pos_of_props [Inhabited α] {comp : α → α → Bool}
    (hirr : ∀ a, comp a a = false)
    (htr : ∀ a b c, comp a b = true → comp b c = true → comp a c = true)
    {l : List α} {pos : Nat} (hL : 2 * pos + 1 < l.length)
    (hm : min_pos_of comp l pos ≠ pos) :
    min_pos_of comp l pos < l.length ∧
    comp (nth l pos) (nth l (min_pos_of comp l pos)) = true ∧
    (∀ c, (c = 2 * pos + 1 ∨ c = 2 * pos + 2) → c < l.length →
      c ≠ min_pos_of comp l pos →
      comp (nth l (min_pos_of comp l pos)) (nth l c) = false) := by
  rcases min_pos_of_spec comp l pos with ⟨he, _, _⟩ | ⟨he, hcl, hsib⟩ |
      ⟨he, hr, ⟨hcl, hlr⟩ | ⟨hcl, hcr⟩⟩
  · exact absurd he hm
  · rw [he]
    refine ⟨hL, hcl, ?_⟩
    rintro c (rfl | rfl) hc hne
    · omega
    · exact hsib hc
  · rw [he]
    refine ⟨hr, htr _ _ _ hcl hlr, ?_⟩
    rintro c (rfl | rfl) hc hne
    · exact comp_asymm hirr htr hlr
    · omega
  · rw [he]
    refine ⟨hr, hcr, ?_⟩
    rintro c (rfl | rfl) hc hne
    · by_contra hcc
      have hcc' : comp (nth l (2 * pos + 2)) (nth l (2 * pos + 1)) = true :=
        Bool.of_not_eq_false hcc
      have := htr _ _ _ hcr hcc'
      rw [hcl] at this
      exact Bool.false_ne_true this
    · omega

/-- When `min_pos` stayed at `_pos`, neither child outranks it. -/
theorem min_pos_of_eq_pos [Inhabited α] {comp : α → α → Bool}
    {l : List α} {pos : Nat} (hm : min_pos_of comp l pos = pos) :
    ∀ c, (c = 2 * pos + 1 ∨ c = 2 * pos + 2) → c < l.length →
      comp (nth l pos) (nth l c) = false := by
  rcases min_pos_of_spec comp l pos with ⟨_, hcl, hcr⟩ | ⟨he, _, _⟩ | ⟨he, _, _⟩
  · rintro c (rfl | rfl) hc
    · exact hcl
    · exact hcr hc
  · omega
  · omega

/-! ### Length and frame lemmas for the bubble operations -/

/-- The selected child is in range whenever it differs from `_pos`. -/
theorem min_pos_of_lt [Inhabited α] {comp : α → α → Bool} {l : List α} {pos : Nat}
    (hL : 2 * pos + 1 < l.length) (hm : min_pos_of comp l pos ≠ pos) :
    min_pos_of comp l pos < l.length := by
  rcases min_pos_of_spec comp l pos with ⟨he, _, _⟩ | ⟨he, _, _⟩ | ⟨he, hr, _⟩
  · exact absurd he hm
  · omega
  · omega

theorem bubble_down_length [Inhabited α] (comp : α → α → Bool) (l : List α) (pos : Nat) :
    (bubble_down comp l pos).length = l.length := by
  induction l, pos using bubble_down.induct comp with
  | case1 l pos h1 => rw [bubble_down]; simp [h1]
  | case2 l pos h1 m h2 ih =>
    rw [bubble_down]; simp only [h1, dif_neg, not_false_iff]
    rw [dif_pos h2]
    rw [ih, length_swapAt]
  | case3 l pos h1 m h2 =>
    rw [bubble_down]; simp only [h1, dif_neg, not_false_iff]
    rw [dif_neg h2]

/-- `bubble_down` from `_pos` never touches an index below the left
child of `_pos` other than `_pos` itself. -/
theorem bubble_down_frame [Inhabited α] (comp : α → α → Bool) (l : List α) (pos : Nat) :
    ∀ q, q ≠ pos → q < 2 * pos + 1 → nth (bubble_down comp l pos) q = nth l q := by
  induction l, pos using bubble_down.induct comp with
  | case1 l pos h1 =>
    intro q hq hql
    rw [bubble_down]; simp [h1]
  | case2 l pos h1 m h2 ih =>
    intro q hq hql
    have hmc := min_pos_of_cases comp l pos
    have hm1 : 2 * pos + 1 ≤ m := by
      rcases hmc with h | h | h <;> omega
    rw [bubble_down]; simp only [h1, dif_neg, not_false_iff]
    rw [dif_pos h2]
    rw [ih q (by omega) (by omega)]
    exact nth_swapAt_other hq (by omega)
  | case3 l pos h1 m h2 =>
    intro q hq hql
    rw [bubble_down]; simp only [h1, dif_neg, not_false_iff]
    rw [dif_neg h2]

theorem bubble_up_length [Inhabited α] (comp : α → α → Bool) (l : List α) (pos : Nat) :
    (bubble_up comp l pos).length = l.length := by
  induction l, pos using bubble_up.induct comp with
  | case1 l => rw [bubble_up]; simp
  | case2 l pos h1 hc ih =>
    rw [bubble_up]; simp only [h1, dif_neg, not_false_iff]
    rw [if_pos hc, ih, length_swapAt]
  | case3 l pos h1 hc =>
    rw [bubble_up]; simp only [h1, dif_neg, not_false_iff]
    rw [if_neg hc]

/-! ### Counting and permutation lemmas -/

theorem count_set [Inhabited α] [DecidableEq α] (l : List α) (i : Nat) (v : α)
    (h : i < l.length) (a : α) :
    (l.set i v).count a + (if nth l i = a then 1 else 0) =
      l.count a + (if v = a then 1 else 0) := by
  induction l generalizing i with
  | nil => simp at h
  | cons b t ih =>
    cases i with
    | zero =>
      simp only [List.set_cons_zero, List.count_cons, nth, List.getD_cons_zero,
        beq_iff_eq]
      omega
    | succ k =>
      have hk : k < t.length := by simpa using h
      have := ih k hk
      simp only [List.set_cons_succ, List.count_cons, nth, List.getD_cons_succ,
        beq_iff_eq] at *
      omega

theorem nth_set_at_other [Inhabited α] {l : List α} {i j : Nat} (hj : j < l.length) :
    nth (l.set i (nth l j)) j = nth l j := by
  rcases eq_or_ne i j with rfl | h
  · exact nth_set_self hj _
  · exact nth_set_ne h _

theorem count_swapAt [Inhabited α] [DecidableEq α] {l : List α} {i j : Nat}
    (hi : i < l.length) (hj : j < l.length) (a : α) :
    (swapAt l i j).count a = l.count a := by
  have E2 := count_set l i (nth l j) hi a
  have E1 := count_set (l.set i (nth l j)) j (nth l i) (by simpa using hj) a
  rw [nth_set_at_other hj] at E1
  unfold swapAt
  omega

theorem swapAt_perm [Inhabited α] [DecidableEq α] {l : List α} {i j : Nat}
    (hi : i < l.length) (hj : j < l.length) : List.Perm (swapAt l i j) l :=
  List.perm_iff_count.mpr (count_swapAt hi hj)

theorem bubble_down_perm [Inhabited α] [DecidableEq α] (comp : α → α → Bool)
    (l : List α) (pos : Nat) : List.Perm (bubble_down comp l pos) l := by
  induction l, pos using bubble_down.induct comp with
  | case1 l pos h1 => rw [bubble_down]; simp [h1]
  | case2 l pos h1 m h2 ih =>
    have hL : 2 * pos + 1 < l.length := by omega
    have hp : pos < l.length := by omega
    have hm : m < l.length := min_pos_of_lt hL h2
    rw [bubble_down]; simp only [h1, dif_neg, not_false_iff]
    rw [dif_pos h2]
    exact ih.trans (swapAt_perm hp hm)
  | case3 l pos h1 m h2 =>
    rw [bubble_down]; simp only [h1, dif_neg, not_false_iff]
    rw [dif_neg h2]

theorem bubble_up_perm [Inhabited α] [DecidableEq α] (comp : α → α → Bool)
    (l : List α) (pos : Nat) (hp : pos < l.length) : List.Perm (bubble_up comp l pos) l := by
  induction l, pos using bubble_up.induct comp with
  | case1 l => rw [bubble_up]; simp
  | case2 l pos h1 hc ih =>
    have hpar : (pos - 1) / 2 < l.length := by
      have : (pos - 1) / 2 ≤ pos - 1 := Nat.div_le_self _ 2
      omega
    rw [bubble_up]; simp only [h1, dif_neg, not_false_iff]
    rw [if_pos hc]
    have ih' := ih (by simpa [length_swapAt] using hpar)
    exact ih'.trans (swapAt_perm hp hpar)
  | case3 l pos h1 hc =>
    rw [bubble_up]; simp only [h1, dif_neg, not_false_iff]
    rw [if_neg hc]

theorem heapify_iter_perm [Inhabited α] [DecidableEq α] (comp : α → α → Bool) :
    ∀ (k : Nat) (l : List α), List.Perm (heapify_iter comp l k) l := by
  intro k
  induction k with
  | zero => intro l; rw [heapify_iter]
  | succ n ih =>
    intro l
    rw [heapify_iter]
    exact (ih _).trans (bubble_down_perm comp l n)

theorem heapify_perm [Inhabited α] [DecidableEq α] (comp : α → α → Bool) (l : List α) :
    List.Perm (heapify comp l) l := heapify_iter_perm comp l.length l

theorem pop_top_length [Inhabited α] (comp : α → α → Bool) (l : List α) :
    (pop_top comp l).length = l.length - 1 := by
  unfold pop_top
  by_cases h : l.length = 0
  · rw [if_pos h]; omega
  · rw [if_neg h, bubble_down_length, List.length_dropLast, length_swapAt]

theorem pop_top_perm [Inhabited α] [DecidableEq α] (comp : α → α → Bool)
    {l : List α} (h : l ≠ []) : List.Perm (nth l 0 :: pop_top comp l) l := by
  have hn : 0 < l.length := List.length_pos.mpr h
  have hlast : l.length - 1 < l.length := by omega
  set s := swapAt l 0 (l.length - 1) with hs
  have hslen : s.length = l.length := length_swapAt l 0 (l.length - 1)
  have hsne : s ≠ [] := by
    intro hh
    rw [hh] at hslen
    simp at hslen
    omega
  have hdecomp : s.dropLast ++ [s.getLast hsne] = s := List.dropLast_append_getLast hsne
  have hglast : s.getLast hsne = nth l 0 := by
    rw [List.getLast_eq_getElem]
    have h1 : s.length - 1 < s.length := by omega
    have := nth_swapAt_snd (l := l) (i := 0) (j := l.length - 1) hlast
    rw [← hs] at this
    rw [← List.getD_eq_getElem s default h1]
    show nth s (s.length - 1) = nth l 0
    rw [hslen]
    exact this
  refine List.perm_iff_count.mpr ?_
  intro a
  have hcount_s : s.count a = l.count a := count_swapAt hn hlast a
  have hsplit : s.dropLast.count a + (if s.getLast hsne = a then 1 else 0) = s.count a := by
    conv_rhs => rw [← hdecomp]
    rw [List.count_append]
    simp [List.count_singleton, beq_iff_eq]
  have hpt : (pop_top comp l).count a = s.dropLast.count a := by
    unfold pop_top
    rw [if_neg (by omega), ← hs]
    exact List.perm_iff_count.mp (bubble_down_perm comp s.dropLast 0) a
  rw [hglast] at hsplit
  simp only [List.count_cons, beq_iff_eq, hpt]
  omega

theorem enqueue_perm [Inhabited α] [DecidableEq α] (comp : α → α → Bool)
    (l : List α) (v : α) : List.Perm (enqueue comp l v) (v :: l) := by
  unfold enqueue
  have h1 : (l ++ [v]).length - 1 < (l ++ [v]).length := by
    simp
  refine (bubble_up_perm comp _ _ h1).trans ?_
  have h2 := @List.perm_middle α v l []
  rw [List.append_nil] at h2
  exact h2

/-! ### Sift-down correctness -/

/-- Correctness of `bubble_down`: starting from a state in which every
parent/child pair strictly below `_pos` is ordered, the call orders every
pair at `_pos` and below; moreover any bound `b` that dominated
`H[_pos]` and both of its children still dominates the value left at
`_pos`. -/
theorem bubble_down_main [Inhabited α] {comp : α → α → Bool}
    (hirr : ∀ a, comp a a = false)
    (htr : ∀ a b c, comp a b = true → comp b c = true → comp a c = true)
    (l : List α) (pos : Nat) :
    (∀ j, pos < j → heapAt comp l j) →
    ((∀ j, pos ≤ j → heapAt comp (bubble_down comp l pos) j) ∧
     (∀ b, comp b (nth l pos) = false →
        (2 * pos + 1 < l.length → comp b (nth l (2 * pos + 1)) = false) →
        (2 * pos + 2 < l.length → comp b (nth l (2 * pos + 2)) = false) →
        comp b (nth (bubble_down comp l pos) pos) = false)) := by
  induction l, pos using bubble_down.induct comp with
  | case1 l pos h1 =>
    intro hbelow
    have heq : bubble_down comp l pos = l := by
      rw [bubble_down]; simp [h1]
    rw [heq]
    constructor
    · intro j hj
      rcases Nat.eq_or_lt_of_le hj with hj' | hj'

      · subst hj'
        exact ⟨fun hc => absurd hc (by omega), fun hc => absurd hc (by omega)⟩
      · exact hbelow j hj'
    · intro b hb _ _
      exact hb
  | case3 l pos h1 m h2 =>
    intro hbelow
    have hmp : min_pos_of comp l pos = pos := not_ne_iff.mp h2
    have heq : bubble_down comp l pos = l := by
      rw [bubble_down]; simp only [h1, dif_neg, not_false_iff]
      rw [dif_neg h2]
    rw [heq]
    constructor
    · intro j hj
      rcases Nat.eq_or_lt_of_le hj with hj' | hj'
      · subst hj'
        exact ⟨fun hc => min_pos_of_eq_pos hmp _ (Or.inl rfl) hc,
               fun hc => min_pos_of_eq_pos hmp _ (Or.inr rfl) hc⟩
      · exact hbelow j hj'
    · intro b hb _ _
      exact hb
  | case2 l pos h1 m h2 ih =>
    intro hbelow
    have hL : 2 * pos + 1 < l.length := by omega
    have hp : pos < l.length := by omega
    have hmm : min_pos_of comp l pos = m := rfl
    obtain ⟨hmlt, hcmp, hsib⟩ := min_pos_of_props hirr htr hL h2
    rw [hmm] at hmlt hcmp hsib
    have hmc : m = 2 * pos + 1 ∨ m = 2 * pos + 2 := by
      rcases min_pos_of_cases comp l pos with h | h | h
      · rw [hmm] at h; exact absurd h h2
      · rw [hmm] at h; exact Or.inl h
      · rw [hmm] at h; exact Or.inr h
    have hpm : pos < m := by rcases hmc with h | h <;> omega
    have heq : bubble_down comp l pos = bubble_down comp (swapAt l pos m) m := by
      rw [bubble_down]; simp only [h1, dif_neg, not_false_iff]
      rw [dif_pos h2]
    have hlen' : (swapAt l pos m).length = l.length := length_swapAt l pos m
    have hv_pos : nth (swapAt l pos m) pos = nth l m := nth_swapAt_fst hp hmlt
    have hv_m : nth (swapAt l pos m) m = nth l pos := nth_swapAt_snd hmlt
    have hbelow' : ∀ j, m < j → heapAt comp (swapAt l pos m) j := by
      intro j hj
      have hb := hbelow j (by omega)
      constructor
      · intro hc
        rw [hlen'] at hc
        rw [nth_swapAt_other (by omega) (by omega),
          nth_swapAt_other (by omega) (by omega)]
        exact hb.1 hc
      · intro hc
        rw [hlen'] at hc
        rw [nth_swapAt_other (by omega) (by omega),
          nth_swapAt_other (by omega) (by omega)]
        exact hb.2 hc
    obtain ⟨IH1, IH2⟩ := ih hbelow'
    have hres_len : (bubble_down comp (swapAt l pos m) m).length = l.length := by
      rw [bubble_down_length, hlen']
    have hframe := bubble_down_frame comp (swapAt l pos m) m
    have hres_pos : nth (bubble_down comp (swapAt l pos m) m) pos = nth l m := by
      rw [hframe pos (by omega) (by omega), hv_pos]
    have hdom : comp (nth l m) (nth (bubble_down comp (swapAt l pos m) m) m) = false := by
      refine IH2 (nth l m) ?_ ?_ ?_
      · rw [hv_m]
        exact comp_asymm hirr htr hcmp
      · intro hcc
        rw [hlen'] at hcc
        rw [nth_swapAt_other (by omega) (by omega)]
        exact (hbelow m hpm).1 hcc
      · intro hcc
        rw [hlen'] at hcc
        rw [nth_swapAt_other (by omega) (by omega)]
        exact (hbelow m hpm).2 hcc
    rw [heq]
    constructor
    · intro j hj
      rcases Nat.lt_or_ge j m with hjm | hjm
      · rcases Nat.eq_or_lt_of_le hj with hj' | hj'
        · -- j = pos: the two children are the moved child m and its sibling
          subst hj'
          constructor
          · intro hc
            rw [hres_len] at hc
            rw [hres_pos]
            rcases hmc with hm' | hm'
            · rw [← hm']
              exact hdom
            · have hne : 2 * pos + 1 ≠ m := by omega
              rw [hframe (2 * pos + 1) hne (by omega),
                nth_swapAt_other (by omega) hne]
              exact hsib (2 * pos + 1) (Or.inl rfl) hc hne
          · intro hc
            rw [hres_len] at hc
            rw [hres_pos]
            rcases hmc with hm' | hm'
            · have hne : 2 * pos + 2 ≠ m := by omega
              rw [hframe (2 * pos + 2) hne (by omega),
                nth_swapAt_other (by omega) hne]
              exact hsib (2 * pos + 2) (Or.inr rfl) hc hne
            · rw [← hm']
              exact hdom
        · -- pos < j < m: untouched by the swap and by the recursion
          have hb := hbelow j hj'
          constructor
          · intro hc
            rw [hres_len] at hc
            have hcm : 2 * j + 1 ≠ m := by
              rcases hmc with h | h <;> omega
            rw [hframe j (by omega) (by omega),
              hframe (2 * j + 1) hcm (by omega),
              nth_swapAt_other (by omega) (by omega),
              nth_swapAt_other (by omega) hcm]
            exact hb.1 hc
          · intro hc
            rw [hres_len] at hc
            have hcm : 2 * j + 2 ≠ m := by
              rcases hmc with h | h <;> omega
            rw [hframe j (by omega) (by omega),
              hframe (2 * j + 2) hcm (by omega),
              nth_swapAt_other (by omega) (by omega),
              nth_swapAt_other (by omega) hcm]
            exact hb.2 hc
      · exact IH1 j hjm
    · intro b hb hbL hbR
      rw [hres_pos]
      rcases hmc with h | h
      · rw [h]
        exact hbL hL
      · rw [h]
        exact hbR (h ▸ hmlt)

/-- The heap invariant as a single quantification over parent/child
pairs. -/
theorem heapInvariant_iff [Inhabited α] (comp : α → α → Bool) (l : List α) :
    heapInvariant comp l ↔
      ∀ j c, (c = 2 * j + 1 ∨ c = 2 * j + 2) → c < l.length →
        comp (nth l j) (nth l c) = false := by
  constructor
  · intro h j c hcc hc
    have hj : j < l.length := by rcases hcc with rfl | rfl <;> omega
    rcases hcc with rfl | rfl
    · exact (h j hj).1 hc
    · exact (h j hj).2 hc
  · intro h j hj
    exact ⟨fun hc => h j _ (Or.inl rfl) hc, fun hc => h j _ (Or.inr rfl) hc⟩

/-! ### Sift-up correctness -/

/-- Correctness of `bubble_up`: starting from a state in which every
parent/child pair except possibly the edge into `_pos` is ordered, and
in which the parent of `_pos` (when it exists) dominates both children
of `_pos`, the call re-establishes the full heap invariant. -/
theorem bubble_up_main [Inhabited α] {comp : α → α → Bool}
    (hirr : ∀ a, comp a a = false)
    (htr : ∀ a b c, comp a b = true → comp b c = true → comp a c = true)
    (hneg : ∀ a b c, comp a b = false → comp b c = false → comp a c = false)
    (l : List α) (pos : Nat) :
    pos < l.length →
    (∀ j c, (c = 2 * j + 1 ∨ c = 2 * j + 2) → c < l.length → c ≠ pos →
      comp (nth l j) (nth l c) = false) →
    (0 < pos → ∀ c, (c = 2 * pos + 1 ∨ c = 2 * pos + 2) → c < l.length →
      comp (nth l ((pos - 1) / 2)) (nth l c) = false) →
    heapInvariant comp (bubble_up comp l pos) := by
  induction l, pos using bubble_up.induct comp with
  | case1 l =>
    intro hpos hex hgp
    have heq : bubble_up comp l 0 = l := by
      rw [bubble_up]; simp
    rw [heq, heapInvariant_iff]
    intro j c hcc hc
    exact hex j c hcc hc (by omega)
  | case2 l pos h1 hc ih =>
    intro hpos hex hgp
    have hparpos : (pos - 1) / 2 < pos := by omega
    have hparlt : (pos - 1) / 2 < l.length := by omega
    have hchild : pos = 2 * ((pos - 1) / 2) + 1 ∨ pos = 2 * ((pos - 1) / 2) + 2 := by
      omega
    have heq : bubble_up comp l pos =
        bubble_up comp (swapAt l pos ((pos - 1) / 2)) ((pos - 1) / 2) := by
      rw [bubble_up]; simp only [h1, dif_neg, not_false_iff]
      rw [if_pos hc]
    have hlen' : (swapAt l pos ((pos - 1) / 2)).length = l.length :=
      length_swapAt l pos ((pos - 1) / 2)
    have hv_pos : nth (swapAt l pos ((pos - 1) / 2)) pos = nth l ((pos - 1) / 2) :=
      nth_swapAt_fst hpos hparlt
    have hv_par : nth (swapAt l pos ((pos - 1) / 2)) ((pos - 1) / 2) = nth l pos :=
      nth_swapAt_snd hparlt
    have hv_other : ∀ q, q ≠ pos → q ≠ (pos - 1) / 2 →
        nth (swapAt l pos ((pos - 1) / 2)) q = nth l q :=
      fun q ha hb => nth_swapAt_other ha hb
    rw [heq]
    refine ih (by omega) ?_ ?_
    · -- every pair except the edge into the parent is ordered after the swap
      intro j c hcc hclt0 hcp
      have hclt : c < l.length := by rw [hlen'] at hclt0; exact hclt0
      rcases eq_or_ne c pos with rfl | hcpos
      · -- the swapped edge itself, now ordered by asymmetry
        have hj : j = (c - 1) / 2 := by rcases hcc with rfl | rfl <;> omega
        rw [hj, hv_pos, hv_par]
        exact comp_asymm hirr htr hc
      · rcases eq_or_ne j pos with rfl | hjpos
        · -- children of `_pos` are dominated by the old parent value
          rw [hv_pos, hv_other c hcpos (by rcases hcc with rfl | rfl <;> omega)]
          exact hgp (by omega) c hcc hclt
        · rcases eq_or_ne j ((pos - 1) / 2) with rfl | hjpar
          · -- the sibling of `_pos` under the old parent, via transitivity
            rw [hv_par, hv_other c hcpos hcp]
            by_contra hcon
            have hcon' : comp (nth l pos) (nth l c) = true :=
              Bool.of_not_eq_false hcon
            have := htr _ _ _ hc hcon'
            rw [hex _ c hcc hclt hcpos] at this
            exact Bool.false_ne_true this
          · -- untouched pair
            have hjc : j < c := by rcases hcc with rfl | rfl <;> omega
            rw [hv_other j hjpos hjpar, hv_other c hcpos hcp]
            exact hex j c hcc hclt hcpos
    · -- grandparent condition at the parent
      intro hppos c hcc hclt0
      have hclt : c < l.length := by rw [hlen'] at hclt0; exact hclt0
      have hgpar_lt : ((pos - 1) / 2 - 1) / 2 < (pos - 1) / 2 := by omega
      have hgpar_ne_pos : ((pos - 1) / 2 - 1) / 2 ≠ pos := by omega
      have hgpar_ne_par : ((pos - 1) / 2 - 1) / 2 ≠ (pos - 1) / 2 := by omega
      have hparchild : (pos - 1) / 2 = 2 * (((pos - 1) / 2 - 1) / 2) + 1 ∨
          (pos - 1) / 2 = 2 * (((pos - 1) / 2 - 1) / 2) + 2 := by omega
      have hgp_par : comp (nth l (((pos - 1) / 2 - 1) / 2)) (nth l ((pos - 1) / 2)) = false :=
        hex _ _ hparchild hparlt (by omega)
      rw [hv_other _ hgpar_ne_pos hgpar_ne_par]
      rcases eq_or_ne c pos with rfl | hcpos
      · rw [hv_pos]
        exact hgp_par
      · have hcpar : c ≠ (pos - 1) / 2 := by rcases hcc with rfl | rfl <;> omega
        rw [hv_other c hcpos hcpar]
        exact hneg _ _ _ hgp_par (hex _ c hcc hclt hcpos)
  | case3 l pos h1 hc =>
    intro hpos hex hgp
    have heq : bubble_up comp l pos = l := by
      rw [bubble_up]; simp only [h1, dif_neg, not_false_iff]
      rw [if_neg hc]
    rw [heq, heapInvariant_iff]
    intro j c hcc hclt
    rcases eq_or_ne c pos with rfl | hcpos
    · have hj : j = (c - 1) / 2 := by rcases hcc with rfl | rfl <;> omega
      rw [hj]
      exact Bool.of_not_eq_true hc
    · exact hex j c hcc hclt hcpos

/-! ### Invariant preservation by the public operations -/

theorem pop_top_heapInvariant [Inhabited α] {comp : α → α → Bool}
    (hirr : ∀ a, comp a a = false)
    (htr : ∀ a b c, comp a b = true → comp b c = true → comp a c = true)
    {l : List α} (hinv : heapInvariant comp l) :
    heapInvariant comp (pop_top comp l) := by
  unfold pop_top
  by_cases h : l.length = 0
  · rw [if_pos h]; exact hinv
  · rw [if_neg h]
    have hlast : l.length - 1 < l.length := by omega
    have hlen2 : ((swapAt l 0 (l.length - 1)).dropLast).length = l.length - 1 := by
      rw [List.length_dropLast, length_swapAt]
    have hbelow : ∀ j, 0 < j →
        heapAt comp ((swapAt l 0 (l.length - 1)).dropLast) j := by
      intro j hj
      have hval : ∀ q, 0 < q → q < l.length - 1 →
          nth ((swapAt l 0 (l.length - 1)).dropLast) q = nth l q := by
        intro q hq1 hq2
        rw [nth_dropLast (by rw [length_swapAt]; omega)]
        exact nth_swapAt_other (by omega) (by omega)
      constructor
      · intro hcc
        rw [hlen2] at hcc
        rw [hval j hj (by omega), hval (2 * j + 1) (by omega) hcc]
        exact (hinv j (by omega)).1 (by omega)
      · intro hcc
        rw [hlen2] at hcc
        rw [hval j hj (by omega), hval (2 * j + 2) (by omega) hcc]
        exact (hinv j (by omega)).2 (by omega)
    have hmain := (bubble_down_main hirr htr _ 0 hbelow).1
    intro j hj
    exact hmain j (Nat.zero_le j)

theorem enqueue_heapInvariant [Inhabited α] {comp : α → α → Bool}
    (hirr : ∀ a, comp a a = false)
    (htr : ∀ a b c, comp a b = true → comp b c = true → comp a c = true)
    (hneg : ∀ a b c, comp a b = false → comp b c = false → comp a c = false)
    {l : List α} (hinv : heapInvariant comp l) (v : α) :
    heapInvariant comp (enqueue comp l v) := by
  unfold enqueue
  have hlen : (l ++ [v]).length = l.length + 1 := by simp
  have hidx : (l ++ [v]).length - 1 = l.length := by simp
  rw [hidx]
  refine bubble_up_main hirr htr hneg (l ++ [v]) l.length (by simp) ?_ ?_
  · intro j c hcc hclt hcp
    have hc' : c < l.length := by omega
    have hj' : j < l.length := by rcases hcc with rfl | rfl <;> omega
    rw [nth_append_left hj', nth_append_left hc']
    exact (heapInvariant_iff comp l).mp hinv j c hcc hc'
  · intro hpos c hcc hclt
    rcases hcc with rfl | rfl <;> omega

theorem alter_at_heapInvariant [Inhabited α] {comp : α → α → Bool}
    (hirr : ∀ a, comp a a = false)
    (htr : ∀ a b c, comp a b = true → comp b c = true → comp a c = true)
    (hneg : ∀ a b c, comp a b = false → comp b c = false → comp a c = false)
    {l : List α} {i : Nat} (hinv : heapInvariant comp l) (hi : i < l.length) (v : α) :
    heapInvariant comp (alter_at comp l i v) := by
  have hpairs := (heapInvariant_iff comp l).mp hinv
  have hlen' : (l.set i v).length = l.length := by simp
  unfold alter_at
  by_cases hbu : comp (nth l i) v = true
  · rw [if_pos hbu]
    refine bubble_up_main hirr htr hneg (l.set i v) i (by omega) ?_ ?_
    · intro j c hcc hclt0 hcp
      have hclt : c < l.length := by omega
      rw [nth_set_ne (Ne.symm hcp) v]
      rcases eq_or_ne j i with rfl | hji
      · rw [nth_set_self hi]
        by_contra hcon
        have hcon' : comp v (nth l c) = true := Bool.of_not_eq_false hcon
        have := htr _ _ _ hbu hcon'
        rw [hpairs j c hcc hclt] at this
        exact Bool.false_ne_true this
      · rw [nth_set_ne (Ne.symm hji) v]
        exact hpairs j c hcc hclt
    · intro hpos c hcc hclt0
      have hclt : c < l.length := by omega
      have hpar_ne : (i - 1) / 2 ≠ i := by omega
      have hc_ne : c ≠ i := by rcases hcc with rfl | rfl <;> omega
      rw [nth_set_ne (Ne.symm hpar_ne) v, nth_set_ne (Ne.symm hc_ne) v]
      have hichild : i = 2 * ((i - 1) / 2) + 1 ∨ i = 2 * ((i - 1) / 2) + 2 := by omega
      exact hneg _ _ _ (hpairs _ i hichild hi) (hpairs i c hcc hclt)
  · rw [if_neg hbu]
    have hbd : comp (nth l i) v = false := Bool.of_not_eq_true hbu
    have hbelow : ∀ j, i < j → heapAt comp (l.set i v) j := by
      intro j hj
      constructor
      · intro hcc
        rw [hlen'] at hcc
        rw [nth_set_ne (by omega) v, nth_set_ne (by omega) v]
        exact hpairs j _ (Or.inl rfl) hcc
      · intro hcc
        rw [hlen'] at hcc
        rw [nth_set_ne (by omega) v, nth_set_ne (by omega) v]
        exact hpairs j _ (Or.inr rfl) hcc
    obtain ⟨hmain1, hmain2⟩ := bubble_down_main hirr htr (l.set i v) i hbelow
    have hres_len : (bubble_down comp (l.set i v) i).length = l.length := by
      rw [bubble_down_length]; exact hlen'
    have hframe := bubble_down_frame comp (l.set i v) i
    rw [heapInvariant_iff]
    intro j c hcc hclt0
    have hclt : c < l.length := by omega
    rcases Nat.lt_or_ge j i with hji | hji
    · -- parent strictly above the altered index
      have hj_lt : j < l.length := by omega
      have hval_j : nth (bubble_down comp (l.set i v) i) j = nth l j := by
        rw [hframe j (by omega) (by omega), nth_set_ne (by omega) v]
      rcases eq_or_ne c i with rfl | hci
      · -- the altered position seen as a child: use the residual bound
        have hcchild : c = 2 * j + 1 ∨ c = 2 * j + 2 := hcc
        rw [hval_j]
        refine hmain2 (nth l j) ?_ ?_ ?_
        · rw [nth_set_self hi]
          exact hneg _ _ _ (hpairs j c hcc hclt) hbd
        · intro hc2
          rw [hlen'] at hc2
          rw [nth_set_ne (by omega) v]
          exact hneg _ _ _ (hpairs j c hcc hclt) (hpairs c _ (Or.inl rfl) hc2)
        · intro hc2
          rw [hlen'] at hc2
          rw [nth_set_ne (by omega) v]
          exact hneg _ _ _ (hpairs j c hcc hclt) (hpairs c _ (Or.inr rfl) hc2)
      · have hc_lt2 : c < 2 * i + 1 := by rcases hcc with rfl | rfl <;> omega
        rw [hval_j, hframe c hci hc_lt2, nth_set_ne (by omega) v]
        exact hpairs j c hcc hclt
    · -- at or below the altered index: covered by sift-down correctness
      have := hmain1 j hji
      rcases hcc with rfl | rfl
      · exact this.1 hclt0
      · exact this.2 hclt0

/-- The spec relation: after a valid `alter` the new value is still a
member of the storage. -/
theorem alter_at_mem [Inhabited α] [DecidableEq α] (comp : α → α → Bool)
    {l : List α} {i : Nat} (hi : i < l.length) (v : α) :
    v ∈ alter_at comp l i v := by
  have hmem : v ∈ l.set i v := by
    have h1 : nth (l.set i v) i = v := nth_set_self hi v
    have h2 : i < (l.set i v).length := by simp; omega
    have h3 := nth_mem h2
    rwa [h1] at h3
  unfold alter_at
  by_cases hbu : comp (nth l i) v = true
  · rw [if_pos hbu]
    exact (bubble_up_perm comp _ i (by simp; omega)).mem_iff.mpr hmem
  · rw [if_neg hbu]
    exact (bubble_down_perm comp _ i).mem_iff.mpr hmem

/-- In a valid heap the root dominates every element. -/
theorem top_is_max [Inhabited α] {comp : α → α → Bool}
    (hirr : ∀ a, comp a a = false)
    (hneg : ∀ a b c, comp a b = false → comp b c = false → comp a c = false)
    {l : List α} (hinv : heapInvariant comp l) :
    ∀ i, i < l.length → comp (nth l 0) (nth l i) = false := by
  have hpairs := (heapInvariant_iff comp l).mp hinv
  intro i
  induction i using Nat.strong_induction_on with
  | _ i ih =>
    intro hi
    rcases Nat.eq_zero_or_pos i with rfl | hpos
    · exact hirr _
    · have hchild : i = 2 * ((i - 1) / 2) + 1 ∨ i = 2 * ((i - 1) / 2) + 2 := by omega
      have hpar_lt : (i - 1) / 2 < i := by omega
      exact hneg _ _ _ (ih _ hpar_lt (by omega)) (hpairs _ i hchild hi)

/-! ### Draining the queue -/

theorem dequeue_length [Inhabited α] (comp : α → α → Bool) (l : List α) :
    (dequeue comp l).length = l.length - 1 := pop_top_length comp l

/-- The drain experiment of the spec: repeatedly read `top()` and call
`dequeue()` until the container is empty, collecting the tops. -/
def drain [Inhabited α] (comp : α → α → Bool) (l : List α) : List α :=
  if h : l.length = 0 then []
  else nth l 0 :: drain comp (dequeue comp l)
termination_by l.length
decreasing_by rw [dequeue_length]; omega

theorem drain_perm [Inhabited α] [DecidableEq α] (comp : α → α → Bool) (l : List α) :
    List.Perm (drain comp l) l := by
  induction l using drain.induct comp with
  | case1 l h =>
    rw [drain, dif_pos h]
    rw [List.length_eq_zero] at h
    rw [h]
  | case2 l h ih =>
    rw [drain, dif_neg h]
    have hne : l ≠ [] := by
      intro hl; rw [hl] at h; exact h rfl
    exact (ih.cons (nth l 0)).trans (pop_top_perm comp hne)

theorem drain_sorted [Inhabited α] [DecidableEq α] {comp : α → α → Bool}
    (hirr : ∀ a, comp a a = false)
    (htr : ∀ a b c, comp a b = true → comp b c = true → comp a c = true)
    (hneg : ∀ a b c, comp a b = false → comp b c = false → comp a c = false)
    (l : List α) (hinv : heapInvariant comp l) :
    List.Pairwise (fun a b => comp a b = false) (drain comp l) := by
  induction l using drain.induct comp with
  | case1 l h =>
    rw [drain, dif_pos h]
    exact List.Pairwise.nil
  | case2 l h ih =>
    rw [drain, dif_neg h]
    have hne : l ≠ [] := by
      intro hl; rw [hl] at h; exact h rfl
    refine List.Pairwise.cons ?_ (ih (pop_top_heapInvariant hirr htr hinv))
    intro b hb
    have hbl : b ∈ l := by
      have h1 : b ∈ dequeue comp l := (drain_perm comp _).mem_iff.mp hb
      exact (pop_top_perm comp hne).mem_iff.mp (List.mem_cons_of_mem _ h1)
    obtain ⟨k, hk, hbk⟩ := List.mem_iff_getElem.mp hbl
    have hnth : nth l k = b := by
      rw [nth, List.getD_eq_getElem _ _ hk, hbk]
    rw [← hnth]
    exact top_is_max hirr hneg hinv k hk

/-- The enqueue experiment of the spec: enqueue all elements of the
input sequence into an initially empty queue. -/
def buildQueue [Inhabited α] (comp : α → α → Bool) (xs : List α) : List α :=
  xs.foldl (enqueue comp) []

theorem buildQueue_heapInvariant [Inhabited α] {comp : α → α → Bool}
    (hirr : ∀ a, comp a a = false)
    (htr : ∀ a b c, comp a b = true → comp b c = true → comp a c = true)
    (hneg : ∀ a b c, comp a b = false → comp b c = false → comp a c = false)
    (xs : List α) : heapInvariant comp (buildQueue comp xs) := by
  have hgen : ∀ (ys : List α) (l : List α), heapInvariant comp l →
      heapInvariant comp (ys.foldl (enqueue comp) l) := by
    intro ys
    induction ys with
    | nil => intro l hl; exact hl
    | cons y ys ih =>
      intro l hl
      exact ih _ (enqueue_heapInvariant hirr htr hneg hl y)
  exact hgen xs [] (fun j hj => absurd hj (by simp))

theorem buildQueue_perm [Inhabited α] [DecidableEq α] (comp : α → α → Bool)
    (xs : List α) : List.Perm (buildQueue comp xs) xs := by
  have hgen : ∀ (ys : List α) (l : List α),
      List.Perm (ys.foldl (enqueue comp) l) (ys ++ l) := by
    intro ys
    induction ys with
    | nil => intro l; simp
    | cons y ys ih =>
      intro l
      refine (ih (enqueue comp l y)).trans ?_
      refine ((enqueue_perm comp l y).append_left ys).trans ?_
      exact @List.perm_middle α y ys l
  have := hgen xs []
  rw [List.append_nil] at this
  exact this

/-! ### Heapify on an already-valid heap -/

theorem bubble_down_of_heapInvariant [Inhabited α] {comp : α → α → Bool}
    {l : List α} (hinv : heapInvariant comp l) (pos : Nat) :
    bubble_down comp l pos = l := by
  have hpairs := (heapInvariant_iff comp l).mp hinv
  rw [bubble_down]
  by_cases h1 : l.length ≤ 2 * pos + 1
  · rw [dif_pos h1]
  · rw [dif_neg h1]
    have hmp : min_pos_of comp l pos = pos := by
      rcases min_pos_of_spec comp l pos with ⟨he, _, _⟩ | ⟨he, hcl, _⟩ |
          ⟨he, hr, ⟨hcl, _⟩ | ⟨_, hcr⟩⟩
      · exact he
      · rw [hpairs pos _ (Or.inl rfl) (by omega)] at hcl
        exact absurd hcl Bool.false_ne_true
      · rw [hpairs pos _ (Or.inl rfl) (by omega)] at hcl
        exact absurd hcl Bool.false_ne_true
      · rw [hpairs pos _ (Or.inr rfl) hr] at hcr
        exact absurd hcr Bool.false_ne_true
    rw [dif_neg (not_ne_iff.mpr hmp)]

theorem heapify_iter_of_heapInvariant [Inhabited α] {comp : α → α → Bool}
    {l : List α} (hinv : heapInvariant comp l) :
    ∀ k, heapify_iter comp l k = l := by
  intro k
  induction k with
  | zero => rw [heapify_iter]
  | succ n ih =>
    rw [heapify_iter, bubble_down_of_heapInvariant hinv n]
    exact ih

/-! ### Relating the two queue variants -/

theorem upq_bubble_down_eq [Inhabited α] (comp : α → α → Bool) (l : List α) (pos : Nat) :
    upq_bubble_down comp l pos = bubble_down comp l pos := by
  induction l, pos using upq_bubble_down.induct comp with
  | case1 l pos h1 =>
    rw [upq_bubble_down, bubble_down]
    simp [h1]
  | case2 l pos h1 m h2 ih =>
    rw [upq_bubble_down, bubble_down]
    simp only [h1, dif_neg, not_false_iff]
    rw [dif_pos h2, dif_pos h2, ih]
  | case3 l pos h1 m h2 =>
    rw [upq_bubble_down, bubble_down]
    simp only [h1, dif_neg, not_false_iff]
    rw [dif_neg h2, dif_neg h2]

theorem dropLast_set_last [Inhabited α] (l : List α) (x : α) :
    (l.set (l.length - 1) x).dropLast = l.dropLast := by
  rcases List.eq_nil_or_concat l with rfl | ⟨t, a, rfl⟩
  · simp
  · simp only [List.concat_eq_append]
    have hlen : (t ++ [a]).length - 1 = t.length := by simp
    rw [hlen]
    rw [List.dropLast_eq_take, List.dropLast_eq_take]
    rw [List.length_set, List.set_take]
    have hlen2 : (t ++ [a]).length - 1 = t.length := by simp
    rw [hlen2]
    have htake : List.take t.length (t ++ [a]) = t := by
      simp [List.take_append_of_le_length]
    rw [htake]
    exact List.set_eq_of_length_le (Nat.le_refl t.length)

/-- The effect of swap-then-pop equals that of assign-then-pop: the two
variants differ only in the value parked in the disappearing last slot. -/
theorem pop_top_eq_assign [Inhabited α] (comp : α → α → Bool) (l : List α) :
    pop_top comp l =
      bubble_down comp ((l.set 0 (nth l (l.length - 1))).dropLast) 0 := by
  unfold pop_top
  by_cases h : l.length = 0
  · rw [if_pos h]
    rw [List.length_eq_zero] at h
    subst h
    rw [bubble_down]
    simp
  · rw [if_neg h]
    unfold swapAt
    have h2 : (l.set 0 (nth l (l.length - 1))).set (l.length - 1) (nth l 0)
        = (l.set 0 (nth l (l.length - 1))).set
            ((l.set 0 (nth l (l.length - 1))).length - 1) (nth l 0) := by
      rw [List.length_set]
    rw [h2, dropLast_set_last]

/-! ### Lookup lemmas for `find` -/

theorem find_idx_le_length [DecidableEq α] (l : List α) (v : α) :
    find_idx l v ≤ l.length := by
  induction l with
  | nil => rw [find_idx]; simp
  | cons a t ih =>
    rw [find_idx]
    by_cases h : a = v
    · rw [if_pos h]; simp
    · rw [if_neg h]; simp; omega

theorem find_idx_of_not_mem [DecidableEq α] {l : List α} {v : α} (h : v ∉ l) :
    find_idx l v = l.length := by
  induction l with
  | nil => rw [find_idx]; rfl
  | cons a t ih =>
    rw [find_idx]
    have ha : a ≠ v := by
      intro hav; exact h (hav ▸ List.mem_cons_self a t)
    rw [if_neg ha, ih (fun hm => h (List.mem_cons_of_mem a hm))]
    rfl

/-! ### The default integer comparator is a strict weak order -/

theorem intLt_irrefl : ∀ a : Int, intLt a a = false := by
  intro a; simp [intLt]

theorem intLt_trans : ∀ a b c : Int,
    intLt a b = true → intLt b c = true → intLt a c = true := by
  intro a b c
  simp only [intLt, decide_eq_true_eq]
  omega

theorem intLt_negtrans : ∀ a b c : Int,
    intLt a b = false → intLt b c = false → intLt a c = false := by
  intro a b c
  simp only [intLt, decide_eq_false_iff_not]
  omega

/-- Modelled from the spec: `priority_queue::write_ordered`
(priority_queue.h lines 279-289) is intended to copy the queue and
repeatedly emit `top()` and `dequeue()` on the copy, leaving the
original untouched.  The source declares its temporary as
`priority_queue<value_type, _Pr> tmp(*this)`, placing the comparator
type `_Pr` in the container template slot, so no instantiation of the
member compiles; the intended copy-then-drain behaviour described by the
spec is modelled here.  The first component is the emitted sequence, the
second the original storage after the call. -/
def write_ordered_model [Inhabited α] (comp : α → α → Bool) (l : List α) :
    List α × List α :=
  (drain comp l, l)

/-! ### The claims -/

/-- Claim C1: the spec (and the class documentation) demand that the
heap invariant hold after every public mutating call, `erase` included.
The code violates this: on the valid max-heap `[20,15,19,10,11,17,18]`
(comparator `std::less<int>`), `erase` at the iterator of index 1
performs a raw positional erase followed by a single `bubble_down(1)`
and leaves `[20,19,10,11,17,18]`, in which the child 18 at index 5
outranks its parent 10 at index 2. -/
theorem claim1_erase_at_violates_invariant :
    heapInvariant intLt [20, 15, 19, 10, 11, 17, 18] ∧
    erase_at intLt [20, 15, 19, 10, 11, 17, 18] 1 = [20, 19, 10, 11, 17, 18] ∧
    ¬ heapInvariant intLt (erase_at intLt [20, 15, 19, 10, 11, 17, 18] 1) := by
  have hev : erase_at intLt [20, 15, 19, 10, 11, 17, 18] 1 = [20, 19, 10, 11, 17, 18] := by
    simp [erase_at, bubble_down, min_pos_of, nth, swapAt, intLt]
  refine ⟨by decide, hev, ?_⟩
  rw [hev]
  decide

/-- Claim C2: for every heap state satisfying the heap invariant (under
a strict-weak-order comparator) and every valid position, after
`alter(pos, v)` the heap invariant holds and the value `v` sits at some
position of the result; in particular altering the value `1` to `20` in
the heap array `[9,3,5,1,7]` leaves `top() == 20`. -/
theorem claim2_alter_correct [Inhabited α] [DecidableEq α] {comp : α → α → Bool}
    (hirr : ∀ a, comp a a = false)
    (htr : ∀ a b c, comp a b = true → comp b c = true → comp a c = true)
    (hneg : ∀ a b c, comp a b = false → comp b c = false → comp a c = false)
    {l : List α} {pos : Nat} (hinv : heapInvariant comp l)
    (hpos : pos < l.length) (v : α) :
    (heapInvariant comp (alter_at comp l pos v) ∧
      ∃ q, q < (alter_at comp l pos v).length ∧ nth (alter_at comp l pos v) q = v) ∧
    nth (alter_pair intLt [9, 3, 5, 1, 7] 1 20) 0 = 20 := by
  have hev : alter_pair intLt [9, 3, 5, 1, 7] 1 20 = [20, 9, 5, 3, 7] := by
    simp [alter_pair, find_idx, bubble_up, bubble_down, min_pos_of, nth, swapAt, intLt]
  refine ⟨⟨alter_at_heapInvariant hirr htr hneg hinv hpos v, ?_⟩, by rw [hev]; decide⟩
  obtain ⟨k, hk, hbk⟩ := List.mem_iff_getElem.mp (alter_at_mem comp hpos v)
  exact ⟨k, hk, by rw [nth, List.getD_eq_getElem _ _ hk, hbk]⟩

theorem claim2_alter_correct_witness :
    heapInvariant intLt [9, 7, 5, 1, 3] ∧ 3 < ([9, 7, 5, 1, 3] : List Int).length ∧
    ((heapInvariant intLt (alter_at intLt [9, 7, 5, 1, 3] 3 20) ∧
      ∃ q, q < (alter_at intLt [9, 7, 5, 1, 3] 3 20).length ∧
        nth (alter_at intLt [9, 7, 5, 1, 3] 3 20) q = 20) ∧
     nth (alter_pair intLt [9, 3, 5, 1, 7] 1 20) 0 = 20) :=
  ⟨by decide, by decide,
    claim2_alter_correct intLt_irrefl intLt_trans intLt_negtrans
      (by decide) (by decide) 20⟩

/-- Claim C3, counterexample: `erase(value)` with an absent value is not
a silent no-op.  `find` returns the end iterator and the code hands it
to `std::vector::erase`, which is undefined behaviour (modelled as
`none`), so the container is not left unchanged. -/
theorem claim3_erase_not_found_not_noop :
    (0 : Int) ∉ ([3, 2, 1] : List Int) ∧
    erase_val intLt [3, 2, 1] 0 ≠ some [3, 2, 1] ∧
    erase_val intLt [3, 2, 1] 0 = none := by
  decide

/-- Claim C3 as amended: `dequeue()` on an empty queue and
`alter(pair)` with an absent target are silent no-ops that leave the
container unchanged; but `erase(value)` with an absent value passes the
end iterator to `std::vector::erase`, which is undefined behaviour
(modelled as `none`), not a no-op. -/
theorem claim3_amended_noop_behaviour [Inhabited α] [DecidableEq α]
    (comp : α → α → Bool) (l : List α) (tgt alt w : α)
    (h1 : tgt ∉ l) (h2 : w ∉ l) :
    dequeue comp ([] : List α) = [] ∧
    alter_pair comp l tgt alt = l ∧
    erase_val comp l w = none := by
  refine ⟨rfl, ?_, ?_⟩
  · unfold alter_pair
    rw [find_idx_of_not_mem h1]
    simp
  · unfold erase_val
    rw [find_idx_of_not_mem h2]
    simp

theorem claim3_amended_noop_behaviour_witness :
    (7 : Int) ∉ ([3, 2, 1] : List Int) ∧ (0 : Int) ∉ ([3, 2, 1] : List Int) ∧
    (dequeue intLt ([] : List Int) = [] ∧
     alter_pair intLt [3, 2, 1] 7 9 = [3, 2, 1] ∧
     erase_val intLt [3, 2, 1] 0 = none) :=
  ⟨by decide, by decide,
    claim3_amended_noop_behaviour intLt [3, 2, 1] 7 9 0 (by decide) (by decide)⟩

/-- Claim C4: enqueueing any finite sequence into an initially empty
queue and then draining it by repeatedly reading `top()` and calling
`dequeue()` yields a permutation of the input sorted by
`higherPriority`, i.e. in non-increasing priority order (no later
element outranks an earlier one), for any strict-weak-order
comparator. -/
theorem claim4_ordering_round_trip [Inhabited α] [DecidableEq α]
    {comp : α → α → Bool}
    (hirr : ∀ a, comp a a = false)
    (htr : ∀ a b c, comp a b = true → comp b c = true → comp a c = true)
    (hneg : ∀ a b c, comp a b = false → comp b c = false → comp a c = false)
    (xs : List α) :
    List.Perm (drain comp (buildQueue comp xs)) xs ∧
    List.Pairwise (fun a b => comp a b = false) (drain comp (buildQueue comp xs)) := by
  constructor
  · exact (drain_perm comp _).trans (buildQueue_perm comp xs)
  · exact drain_sorted hirr htr hneg _ (buildQueue_heapInvariant hirr htr hneg xs)

theorem claim4_ordering_round_trip_witness :
    List.Perm (drain intLt (buildQueue intLt [5, 1, 9, 3, 7])) [5, 1, 9, 3, 7] ∧
    List.Pairwise (fun a b => intLt a b = false)
      (drain intLt (buildQueue intLt [5, 1, 9, 3, 7])) :=
  claim4_ordering_round_trip intLt_irrefl intLt_trans intLt_negtrans [5, 1, 9, 3, 7]

/-- Claim C5: on every non-empty queue, `dequeue()` moves `H[last]`
into `H[0]`, shrinks the storage by exactly one element and runs
`bubbleDown(0)` (the swap-then-pop of the source has exactly this
effect); in particular from the heap array `[9,7,5,3,1]` it leaves
`top() == 7` and `size() == 4`. -/
theorem claim5_dequeue_behaviour [Inhabited α] (comp : α → α → Bool)
    (l : List α) (h : l ≠ []) :
    dequeue comp l =
      bubble_down comp ((l.set 0 (nth l (l.length - 1))).dropLast) 0 ∧
    (dequeue comp l).length = l.length - 1 ∧
    nth (dequeue intLt [9, 7, 5, 3, 1]) 0 = 7 ∧
    (dequeue intLt [9, 7, 5, 3, 1]).length = 4 := by
  have hev : dequeue intLt [9, 7, 5, 3, 1] = [7, 3, 5, 1] := by
    simp [dequeue, pop_top, bubble_down, min_pos_of, nth, swapAt, intLt]
  exact ⟨pop_top_eq_assign comp l, pop_top_length comp l,
    by rw [hev]; decide, by rw [hev]; decide⟩

theorem claim5_dequeue_behaviour_witness :
    ([9, 7, 5, 3, 1] : List Int) ≠ [] ∧
    (dequeue intLt [9, 7, 5, 3, 1] =
      bubble_down intLt
        (([9, 7, 5, 3, 1] : List Int).set 0
          (nth [9, 7, 5, 3, 1] (([9, 7, 5, 3, 1] : List Int).length - 1))).dropLast 0 ∧
     (dequeue intLt [9, 7, 5, 3, 1]).length = ([9, 7, 5, 3, 1] : List Int).length - 1 ∧
     nth (dequeue intLt [9, 7, 5, 3, 1]) 0 = 7 ∧
     (dequeue intLt [9, 7, 5, 3, 1]).length = 4) :=
  ⟨by decide, claim5_dequeue_behaviour intLt [9, 7, 5, 3, 1] (by decide)⟩

/-- Claim C6: in `bubble_down`, when both children exist and are judged
equivalent by the (strict-weak-order) comparator, the right child is
never selected: any swap uses the left child (STL-style left
tie-break). -/
theorem claim6_tie_break_left [Inhabited α] {comp : α → α → Bool}
    (hneg : ∀ a b c, comp a b = false → comp b c = false → comp a c = false)
    (l : List α) (pos : Nat) (hr : 2 * pos + 2 < l.length)
    (htiea : comp (nth l (2 * pos + 1)) (nth l (2 * pos + 2)) = false)
    (htieb : comp (nth l (2 * pos + 2)) (nth l (2 * pos + 1)) = false) :
    min_pos_of comp l pos ≠ 2 * pos + 2 ∧
    (comp (nth l pos) (nth l (2 * pos + 1)) = true →
      min_pos_of comp l pos = 2 * pos + 1) := by
  rcases min_pos_of_spec comp l pos with ⟨he, hcl, _⟩ | ⟨he, _, _⟩ |
      ⟨he, _, ⟨_, hlr⟩ | ⟨hcl, hcr⟩⟩
  · constructor
    · omega
    · intro hcon
      rw [hcl] at hcon
      exact absurd hcon Bool.false_ne_true
  · constructor
    · omega
    · intro _
      exact he
  · rw [htiea] at hlr
    exact absurd hlr Bool.false_ne_true
  · have := hneg _ _ _ hcl htiea
    rw [hcr] at this
    exact absurd this.symm Bool.false_ne_true

theorem claim6_tie_break_left_witness :
    2 * 0 + 2 < ([2, 3, 3] : List Int).length ∧
    intLt (nth [2, 3, 3] (2 * 0 + 1)) (nth [2, 3, 3] (2 * 0 + 2)) = false ∧
    intLt (nth [2, 3, 3] (2 * 0 + 2)) (nth [2, 3, 3] (2 * 0 + 1)) = false ∧
    (min_pos_of intLt [2, 3, 3] 0 ≠ 2 * 0 + 2 ∧
     (intLt (nth [2, 3, 3] (2 * 0 + 1 : Nat)) (nth ([2, 3, 3] : List Int) 0) = false →
       True)) ∧
    min_pos_of intLt [2, 3, 3] 0 = 1 :=
  ⟨by decide, by decide, by decide,
    ⟨(claim6_tie_break_left intLt_negtrans [2, 3, 3] 0 (by decide) (by decide)
        (by decide)).1, fun _ => trivial⟩,
    (claim6_tie_break_left intLt_negtrans [2, 3, 3] 0 (by decide) (by decide)
        (by decide)).2 (by decide)⟩

/-- Claim C7: `heapify()` on a storage sequence that already satisfies
the heap invariant returns it exactly unchanged: `bubble_down` at every
position finds no violation and performs no swap. -/
theorem claim7_heapify_idempotent [Inhabited α] {comp : α → α → Bool}
    {l : List α} (hinv : heapInvariant comp l) : heapify comp l = l := by
  unfold heapify
  exact heapify_iter_of_heapInvariant hinv l.length

theorem claim7_heapify_idempotent_witness :
    heapInvariant intLt [9, 7, 5, 3, 1] ∧
    heapify intLt [9, 7, 5, 3, 1] = [9, 7, 5, 3, 1] :=
  ⟨by decide, claim7_heapify_idempotent (by decide)⟩

/-- Claim C8: the intended behaviour of `write_ordered` (modelled from
the spec because the source's temporary is declared with the comparator
type in the container slot and no instantiation compiles): it drains a
copy, so the original storage is returned exactly unchanged, and the
emitted sequence is a permutation of the storage in non-increasing
priority order. -/
theorem claim8_write_ordered_model_correct [Inhabited α] [DecidableEq α]
    {comp : α → α → Bool}
    (hirr : ∀ a, comp a a = false)
    (htr : ∀ a b c, comp a b = true → comp b c = true → comp a c = true)
    (hneg : ∀ a b c, comp a b = false → comp b c = false → comp a c = false)
    {l : List α} (hinv : heapInvariant comp l) :
    (write_ordered_model comp l).2 = l ∧
    List.Pairwise (fun a b => comp a b = false) (write_ordered_model comp l).1 ∧
    List.Perm (write_ordered_model comp l).1 l :=
  ⟨rfl, drain_sorted hirr htr hneg l hinv, drain_perm comp l⟩

theorem claim8_write_ordered_model_correct_witness :
    heapInvariant intLt [9, 7, 5, 3, 1] ∧
    ((write_ordered_model intLt [9, 7, 5, 3, 1]).2 = [9, 7, 5, 3, 1] ∧
     List.Pairwise (fun a b => intLt a b = false)
       (write_ordered_model intLt [9, 7, 5, 3, 1]).1 ∧
     List.Perm (write_ordered_model intLt [9, 7, 5, 3, 1]).1 [9, 7, 5, 3, 1]) :=
  ⟨by decide,
    claim8_write_ordered_model_correct intLt_irrefl intLt_trans intLt_negtrans
      (by decide)⟩

/-- Claim C9: for every storage sequence and every comparator,
`priority_queue`'s dequeue (swap `H[0]` with `H[last]`, pop the last
element, `bubbleDown(0)`) and `unstable_priority_queue`'s dequeue
(copy-assign `H[last]` onto `H[0]`, pop the last element,
`bubbleDown(0)`) produce exactly the same resulting storage
sequence. -/
theorem claim9_dequeue_variants_agree [Inhabited α] (comp : α → α → Bool)
    (l : List α) : upq_dequeue comp l = dequeue comp l := by
  unfold upq_dequeue dequeue
  rw [pop_top_eq_assign]
  by_cases h : l.length = 0
  · rw [if_pos h]
    rw [List.length_eq_zero] at h
    subst h
    rw [bubble_down]
    simp
  · rw [if_neg h, upq_bubble_down_eq]

/-- Claim C10: `bubble_up`, `bubble_down` and `heapify` only permute
the stored elements: for every storage sequence and valid position the
multiset of elements is unchanged. -/
theorem claim10_bubble_ops_permute [Inhabited α] [DecidableEq α]
    (comp : α → α → Bool) (l : List α) (pos : Nat) (hpos : pos < l.length) :
    ((bubble_up comp l pos : List α) : Multiset α) = (l : Multiset α) ∧
    ((bubble_down comp l pos : List α) : Multiset α) = (l : Multiset α) ∧
    ((heapify comp l : List α) : Multiset α) = (l : Multiset α) :=
  ⟨Multiset.coe_eq_coe.mpr (bubble_up_perm comp l pos hpos),
   Multiset.coe_eq_coe.mpr (bubble_down_perm comp l pos),
   Multiset.coe_eq_coe.mpr (heapify_perm comp l)⟩

theorem claim10_bubble_ops_permute_witness :
    1 < ([9, 1, 5, 7, 3] : List Int).length ∧
    (((bubble_up intLt [9, 1, 5, 7, 3] 1 : List Int) : Multiset Int) =
        ([9, 1, 5, 7, 3] : List Int) ∧
     ((bubble_down intLt [9, 1, 5, 7, 3] 1 : List Int) : Multiset Int) =
        ([9, 1, 5, 7, 3] : List Int) ∧
     ((heapify intLt [9, 1, 5, 7, 3] : List Int) : Multiset Int) =
        ([9, 1, 5, 7, 3] : List Int)) :=
  ⟨by decide, claim10_bubble_ops_permute intLt [9, 1, 5, 7, 3] 1 (by decide)⟩

end CrescentPQ
